import Mathlib

/-!
Verification of the rxd media-harvesting pipeline against its specification.

The development shallowly embeds the three source files (`db.rs`, `task.rs`,
`main.rs`): SQLite tables become association lists, the filesystem becomes a
partial map from paths to byte lists, JSON values become an inductive type,
and the async machinery (`buffer_unordered`, the pagination loop) becomes a
small-step scheduler relation plus a structurally recursive page driver.
Bytes are `Nat` (each < 256); 32-bit machine words are `Nat` reduced
`% 2^32` at every operation.
-/

namespace Rxd

/-! ## Rust string splitting

`s.split(sep)` on a Rust `&str` always yields at least one segment: splitting
the empty string yields `[""]`.  `s.rsplit(sep).next()` is therefore the last
segment of `split`, and is never `None`. We model strings as `List Char`. -/

/-- Models Rust `str::split(sep)` on the character list of a string. -/
def splitChar (sep : Char) : List Char → List (List Char)
  | [] => [[]]
  | c :: rest =>
    if c = sep then [] :: splitChar sep rest
    else
      match splitChar sep rest with
      | [] => [[c]]
      | h :: t => (c :: h) :: t

theorem splitChar_ne_nil (sep : Char) (l : List Char) : splitChar sep l ≠ [] := by
  cases l with
  | nil => simp [splitChar]
  | cons c rest =>
    simp only [splitChar]
    split
    · simp
    · split <;> simp

/-- Models Rust `s.rsplit(sep).next()`: the first segment counting from the
end, i.e. the last segment of `split`. -/
def rsplitNext (sep : Char) (l : List Char) : Option (List Char) :=
  ((splitChar sep l).reverse).head?

/-- Models Rust `s.split(sep).next()`: the first segment of `split`. -/
def splitNext (sep : Char) (l : List Char) : Option (List Char) :=
  (splitChar sep l).head?

/-- Models Rust `str::contains(needle)`: substring containment. -/
def containsSubstr (needle hay : List Char) : Bool :=
  hay.tails.any (fun t => needle.isPrefixOf t)

/-! ## SHA-256 (`sha2` crate), over bytes as `Nat` -/

/-- Right rotation on 32-bit words. -/
def rotr32 (x k : Nat) : Nat :=
  ((x >>> k) ||| (x <<< (32 - k))) % 4294967296

/-- Addition on 32-bit words. -/
def add32 (a b : Nat) : Nat := (a + b) % 4294967296

/-- Complement on 32-bit words. -/
def not32 (x : Nat) : Nat := x ^^^ 4294967295

def bigSigma0 (x : Nat) : Nat := rotr32 x 2 ^^^ rotr32 x 13 ^^^ rotr32 x 22
def bigSigma1 (x : Nat) : Nat := rotr32 x 6 ^^^ rotr32 x 11 ^^^ rotr32 x 25
def smallSigma0 (x : Nat) : Nat := rotr32 x 7 ^^^ rotr32 x 18 ^^^ (x >>> 3)
def smallSigma1 (x : Nat) : Nat := rotr32 x 17 ^^^ rotr32 x 19 ^^^ (x >>> 10)
def chF (x y z : Nat) : Nat := (x &&& y) ^^^ (not32 x &&& z)
def majF (x y z : Nat) : Nat := (x &&& y) ^^^ (x &&& z) ^^^ (y &&& z)

/-- The 64 SHA-256 round constants. -/
def sha256K : List Nat :=
  [1116352408, 1899447441, 3049323471, 3921009573,
   961987163, 1508970993, 2453635748, 2870763221,
   3624381080, 310598401, 607225278, 1426881987,
   1925078388, 2162078206, 2614888103, 3248222580,
   3835390401, 4022224774, 264347078, 604807628,
   770255983, 1249150122, 1555081692, 1996064986,
   2554220882, 2821834349, 2952996808, 3210313671,
   3336571891, 3584528711, 113926993, 338241895,
   666307205, 773529912, 1294757372, 1396182291,
   1695183700, 1986661051, 2177026350, 2456956037,
   2730485921, 2820302411, 3259730800, 3345764771,
   3516065817, 3600352804, 4094571909, 275423344,
   430227734, 506948616, 659060556, 883997877,
   958139571, 1322822218, 1537002063, 1747873779,
   1955562222, 2024104815, 2227730452, 2361852424,
   2428436474, 2756734187, 3204031479, 3329325298]

/-- SHA-256 initial hash value. -/
def sha256InitH : List Nat :=
  [1779033703, 3144134277, 1013904242, 2773480762,
   1359893119, 2600822924, 528734635, 1541459225]

/-- Big-endian byte rendering of `n` on `k` bytes. -/
def natToBytesBE : Nat → Nat → List Nat
  | 0, _ => []
  | k + 1, n => natToBytesBE k (n / 256) ++ [n % 256]

/-- SHA-256 message padding: append `0x80`, zero-pad to 56 mod 64, then the
bit length on 8 big-endian bytes. -/
def padMessage (msg : List Nat) : List Nat :=
  msg ++ 128 :: List.replicate ((119 - msg.length % 64) % 64) 0
      ++ natToBytesBE 8 (msg.length * 8)

/-- Split a byte list into 64-byte blocks. -/
def chunks64 : List Nat → List (List Nat)
  | [] => []
  | x :: rest => ((x :: rest).take 64) :: chunks64 ((x :: rest).drop 64)
termination_by l => l.length
decreasing_by simp; omega

/-- Big-endian 4-byte groups to 32-bit words. -/
def bytesToWords : List Nat → List Nat
  | b0 :: b1 :: b2 :: b3 :: rest =>
    (((b0 * 256 + b1) * 256 + b2) * 256 + b3) :: bytesToWords rest
  | _ => []

/-- Extend the 16 block words to the 64-entry message schedule. -/
def scheduleW (ws : List Nat) : Array Nat :=
  (List.range 48).foldl
    (fun w i =>
      w.push ((smallSigma1 (w.getD (i + 14) 0) + w.getD (i + 9) 0 +
               smallSigma0 (w.getD (i + 1) 0) + w.getD i 0) % 4294967296))
    ws.toArray

/-- One SHA-256 compression step over a 64-byte block. -/
def compressBlock (h : List Nat) (block : List Nat) : List Nat :=
  let w := scheduleW (bytesToWords block)
  let st0 : Nat × Nat × Nat × Nat × Nat × Nat × Nat × Nat :=
    (h.getD 0 0, h.getD 1 0, h.getD 2 0, h.getD 3 0,
     h.getD 4 0, h.getD 5 0, h.getD 6 0, h.getD 7 0)
  let stN := (List.range 64).foldl
    (fun st t =>
      let (a, b, c, d, e, f, g, hh) := st
      let t1 := (hh + bigSigma1 e + chF e f g + sha256K.getD t 0 + w.getD t 0) % 4294967296
      let t2 := (bigSigma0 a + majF a b c) % 4294967296
      (add32 t1 t2, a, b, c, add32 d t1, e, f, g))
    st0
  let (a, b, c, d, e, f, g, hh) := stN
  [add32 (h.getD 0 0) a, add32 (h.getD 1 0) b, add32 (h.getD 2 0) c,
   add32 (h.getD 3 0) d, add32 (h.getD 4 0) e, add32 (h.getD 5 0) f,
   add32 (h.getD 6 0) g, add32 (h.getD 7 0) hh]

/-- SHA-256 digest of a byte list, as 32 bytes. -/
def sha256 (msg : List Nat) : List Nat :=
  ((chunks64 (padMessage msg)).foldl compressBlock sha256InitH).flatMap
    (natToBytesBE 4)

/-- Lowercase hexadecimal digit. -/
def hexDigit (n : Nat) : Char :=
  if n < 10 then Char.ofNat (48 + n) else Char.ofNat (87 + n)

/-- A byte as two lowercase hex characters. -/
def byteToHex (b : Nat) : List Char := [hexDigit (b / 16), hexDigit (b % 16)]

/-! ## `db.rs`: the Integrity Store

The two SQLite tables become lists of rows; each statement of `db.rs` becomes
a pure function on them.  The filesystem is a map from path to contents. -/

/-- A row of the `tweets` table. -/
structure TweetRow where
  tweet_id : String
  screen_name : String
  tweet_time : String
  full_text : Option String
deriving DecidableEq, Repr

/-- A row of the `media` table. -/
structure MediaRow where
  tweet_id : String
  media_url : String
  filename : Option String
  file_hash : Option String
deriving DecidableEq, Repr

/-- Embeds `upsert_tweet`: `INSERT .. ON CONFLICT(tweet_id) DO UPDATE SET
full_text = excluded.full_text`. -/
def upsert_tweet (table : List TweetRow) (tweet_id screen_name tweet_time : String)
    (full_text : Option String) : List TweetRow :=
  if table.any (fun r => r.tweet_id == tweet_id) then
    table.map (fun r =>
      if r.tweet_id == tweet_id then { r with full_text := full_text } else r)
  else
    table ++ [⟨tweet_id, screen_name, tweet_time, full_text⟩]

/-- Embeds `upsert_media`: `INSERT .. ON CONFLICT(media_url) DO UPDATE SET
filename = excluded.filename`.  The insert carries no hash. -/
def upsert_media (table : List MediaRow) (tweet_id media_url : String)
    (filename : Option String) : List MediaRow :=
  if table.any (fun r => r.media_url == media_url) then
    table.map (fun r =>
      if r.media_url == media_url then { r with filename := filename } else r)
  else
    table ++ [⟨tweet_id, media_url, filename, none⟩]

/-- Embeds `update_hash`: `UPDATE media SET file_hash = ? WHERE media_url = ?`,
a no-op when no row matches. -/
def update_hash (table : List MediaRow) (media_url file_hash : String) :
    List MediaRow :=
  table.map (fun r =>
    if r.media_url == media_url then { r with file_hash := some file_hash } else r)

/-- The projection of a `media` row returned by `get_media_by_url`. -/
structure MediaRecord where
  filename : Option String
  file_hash : Option String
deriving DecidableEq, Repr

/-- Embeds `get_media_by_url`: `SELECT filename, file_hash FROM media WHERE media_url = ?`. -/
def get_media_by_url (table : List MediaRow) (media_url : String) :
    Option MediaRecord :=
  (table.find? (fun r => r.media_url == media_url)).map
    (fun r => ⟨r.filename, r.file_hash⟩)

/-- Embeds `calculate_hash`: SHA-256 of the bytes rendered `{:x}` (two lowercase hex
characters per digest byte). -/
def calculate_hash (data : List Nat) : String :=
  String.mk ((sha256 data).flatMap byteToHex)

/-- Embeds `Path::join`: an absolute right operand replaces the base path. -/
def pathJoin (base filename : String) : String :=
  if filename.startsWith "/" then filename else base ++ "/" ++ filename

/-- Embeds `verify_file`, with the database a row list and the filesystem a map
`files : path → Option contents`; `filepath.exists()` is `(files p).isSome`
and `fs::read` errors exactly on a missing file. -/
def verify_file (table : List MediaRow) (files : String → Option (List Nat))
    (save_path media_url : String) : Except String Bool :=
  match get_media_by_url table media_url with
  | none => .ok false
  | some record =>
    match record.filename, record.file_hash with
    | some filename, some expected_hash =>
      let filepath := pathJoin save_path filename
      if (files filepath).isSome then
        match files filepath with
        | some content => .ok (calculate_hash content == expected_hash)
        | none => .error "read failed"
      else .ok false
    | _, _ => .ok false

/-! ## `task.rs`: data model and JSON -/

/-- Embeds `MediaType` from `task.rs`. -/
inductive MediaType where
  | Image
  | Video
deriving DecidableEq, Repr

/-- Embeds `MediaItem` from `task.rs`; the `DateTime<FixedOffset>` is embedded as the
instant it denotes, in seconds since the Unix epoch. -/
structure MediaItem where
  url : String
  media_type : MediaType
  timestamp : Int
deriving DecidableEq, Repr

/-- Embeds `serde_json::Value`, restricted to integral numbers (the only numbers the
program reads are bitrates via `as_u64`). -/
inductive Json where
  | null
  | bool (b : Bool)
  | num (n : Int)
  | str (s : String)
  | arr (elems : List Json)
  | obj (fields : List (String × Json))
deriving Repr

/-- Embeds `Value::get(key)` on an object. -/
def Json.get : Json → String → Option Json
  | .obj fields, key => (fields.find? (fun f => f.1 == key)).map (fun f => f.2)
  | _, _ => none

/-- Embeds `Value::pointer` with the path pre-split at the slashes (every pointer the
program uses consists of object keys only). -/
def Json.getPath : Json → List String → Option Json
  | j, [] => some j
  | j, k :: ks =>
    match j.get k with
    | some v => v.getPath ks
    | none => none

/-- Embeds `Value::as_str`. -/
def Json.asStr : Json → Option String
  | .str s => some s
  | _ => none

/-- Embeds `Value::as_array`. -/
def Json.asArray : Json → Option (List Json)
  | .arr xs => some xs
  | _ => none

/-- Embeds `Value::as_u64`: a non-negative integral number. -/
def Json.asU64 : Json → Option Nat
  | .num n => if 0 ≤ n then some n.toNat else none
  | _ => none

/-! ## `extract_media_from_item` -/

/-- The variant filter in `extract_media_from_item`:
`content_type` contains `"mp4"`. -/
def isMp4Variant (v : Json) : Bool :=
  (((v.get "content_type").bind Json.asStr).map
    (fun t => containsSubstr "mp4".data t.data)).getD false

/-- The `max_by_key` key: `bitrate` via `as_u64`, `unwrap_or(0)`. -/
def bitrateKey (v : Json) : Nat :=
  ((v.get "bitrate").bind Json.asU64).getD 0

/-- Rust `Iterator::max_by_key`: the maximum under `key`, the last one on
ties. -/
def maxByKeyLast (key : Json → Nat) (l : List Json) : Option Json :=
  l.foldl
    (fun acc v =>
      match acc with
      | none => some v
      | some a => if key a ≤ key v then some v else some a)
    none

/-- The body of the per-media loop in `extract_media_from_item`: zero or one
`MediaItem` per entry of `extended_entities/media`. -/
def extractOneMedia (timestamp : Int) (media : Json) : List MediaItem :=
  let media_type_str := ((media.get "type").bind Json.asStr).getD "photo"
  if media_type_str = "photo" then
    match (media.get "media_url_https").bind Json.asStr with
    | some url => [⟨url, .Image, timestamp⟩]
    | none => []
  else if media_type_str = "video" ∨ media_type_str = "animated_gif" then
    match (media.getPath ["video_info", "variants"]).bind Json.asArray with
    | some variants =>
      match (maxByKeyLast bitrateKey (variants.filter isMp4Variant)).bind
          (fun v => (v.get "url").bind Json.asStr) with
      | some url => [⟨url, .Video, timestamp⟩]
      | none => []
    | none => []
  else []

/-- Embeds `extract_media_from_item`, parameterised by the chrono timestamp parser
`parseTs` (the embedding of
`DateTime::parse_from_str(s, "%a %b %d %H:%M:%S %z %Y").ok()`); a parse
failure falls back to `DateTime::<FixedOffset>::default()`, the epoch. -/
def extract_media_from_item (parseTs : String → Option Int) (item : Json) :
    Option (List MediaItem) :=
  match item.getPath ["item", "itemContent", "tweet_results", "result"] with
  | none => none
  | some result =>
    match (result.get "legacy") <|> (result.getPath ["tweet", "legacy"]) with
    | none => none
    | some legacy =>
      let timestamp := (((legacy.get "created_at").bind Json.asStr).bind parseTs).getD 0
      match (legacy.getPath ["extended_entities", "media"]).bind Json.asArray with
      | none => none
      | some media_array =>
        let results := media_array.flatMap (extractOneMedia timestamp)
        if results.isEmpty then none else some results

/-! ## `parse_user_media_response` -/

/-- Embeds `if let Some(media) = extract_media_from_item(item) { media_items.extend(media) }`
over a list of items. -/
def collectItems (parseTs : String → Option Int) (items : List Json) :
    List MediaItem :=
  items.flatMap (fun i => (extract_media_from_item parseTs i).getD [])

/-- The body of the `entries` loop: record a bottom cursor when present, then
extract media from `content/items`. -/
def entryStep (parseTs : String → Option Int)
    (acc : List MediaItem × Option String) (entry : Json) :
    List MediaItem × Option String :=
  let entry_id := ((entry.get "entryId").bind Json.asStr).getD ""
  let acc :=
    if containsSubstr "cursor-bottom".data entry_id.data then
      match (entry.getPath ["content", "value"]).bind Json.asStr with
      | some cursor_value => (acc.1, some cursor_value)
      | none => acc
    else acc
  match (entry.getPath ["content", "items"]).bind Json.asArray with
  | some items => (acc.1 ++ collectItems parseTs items, acc.2)
  | none => acc

/-- The body of the `instructions` loop: `moduleItems` first, then
`entries`. -/
def instructionStep (parseTs : String → Option Int)
    (acc : List MediaItem × Option String) (instruction : Json) :
    List MediaItem × Option String :=
  let acc :=
    match (instruction.get "moduleItems").bind Json.asArray with
    | some module_items => (acc.1 ++ collectItems parseTs module_items, acc.2)
    | none => acc
  match (instruction.get "entries").bind Json.asArray with
  | some entries => entries.foldl (entryStep parseTs) acc
  | none => acc

/-- Embeds `parse_user_media_response`. -/
def parse_user_media_response (parseTs : String → Option Int) (raw : Json) :
    Except String (List MediaItem × Option String) :=
  match (raw.getPath
      ["data", "user", "result", "timeline_v2", "timeline", "instructions"]).bind
      Json.asArray with
  | none => .error "Failed to find instructions"
  | some instructions =>
    .ok (instructions.foldl (instructionStep parseTs) ([], none))

/-! ## `download_media`: destination filename and fetch

chrono's `%Y-%m-%d` local-time formatting is embedded through the standard
civil-from-days conversion; the local time zone is an offset function
(seconds east of UTC) of the instant. -/

/-- Civil date (year, month, day) of a day count since 1970-01-01. -/
def civilFromDays (z0 : Int) : Int × Nat × Nat :=
  let z := z0 + 719468
  let era := z.fdiv 146097
  let doe := (z - era * 146097).toNat
  let yoe := (doe - doe / 1460 + doe / 36524 - doe / 146096) / 365
  let y := (yoe : Int) + era * 400
  let doy := doe - (365 * yoe + yoe / 4 - yoe / 100)
  let mp := (5 * doy + 2) / 153
  let d := doy - (153 * mp + 2) / 5 + 1
  let m := if mp < 10 then mp + 3 else mp - 9
  (if m ≤ 2 then y + 1 else y, m, d)

/-- Decimal digits, zero-padded on the left to width `w`. -/
def padNum (w n : Nat) : List Char :=
  let s := Nat.toDigits 10 n
  List.replicate (w - s.length) '0' ++ s

/-- Embeds `%Y-%m-%d` of a day count since the epoch. -/
def formatYMD (days : Int) : List Char :=
  match civilFromDays days with
  | (y, m, d) =>
    (if y < 0 then '-' :: padNum 4 (-y).toNat else padNum 4 y.toNat)
      ++ '-' :: padNum 2 m ++ '-' :: padNum 2 d

/-- Embeds `item.timestamp.with_timezone(&Local).format("%Y-%m-%d")`. -/
def dateStrLocal (tz : Int → Int) (secs : Int) : List Char :=
  formatYMD ((secs + tz secs).fdiv 86400)

/-- The `ext` computation of `download_media`:
`item.url.rsplit('.').next().unwrap_or("jpg")` for images, `"mp4"` for
videos. -/
def extChars (item : MediaItem) : List Char :=
  match item.media_type with
  | .Image => (rsplitNext '.' item.url.data).getD "jpg".data
  | .Video => "mp4".data

/-- The `media_id` computation of `download_media`:
`item.url.rsplit('/').next().and_then(|s| s.split('.').next()).unwrap_or("unknown")`. -/
def mediaIdChars (item : MediaItem) : List Char :=
  ((rsplitNext '/' item.url.data).bind (fun s => splitNext '.' s)).getD
    "unknown".data

/-- Embeds `format!("{}-{}.{}", date_str, media_id, ext)`. -/
def filenameOf (tz : Int → Int) (item : MediaItem) : String :=
  String.mk (dateStrLocal tz item.timestamp
    ++ '-' :: mediaIdChars item ++ '.' :: extChars item)

/-- The `download_url` of `download_media`: images request `?name=orig`. -/
def downloadUrlOf (item : MediaItem) : String :=
  match item.media_type with
  | .Image => item.url ++ "?name=orig"
  | .Video => item.url

/-- Point update of the filesystem map (`File::create` + `write_all`). -/
def fsWrite (files : String → Option (List Nat)) (p : String)
    (bytes : List Nat) : String → Option (List Nat) :=
  fun q => if q = p then some bytes else files q

/-- Embeds `download_media` as in `src/task.rs`: skip when the destination exists,
else fetch (`fetch u = none` models a non-success status or transport
failure) and write the body.  Returns the updated filesystem and the result. -/
def download_media (fetch : String → Option (List Nat))
    (files : String → Option (List Nat)) (save_path : String) (tz : Int → Int)
    (item : MediaItem) : (String → Option (List Nat)) × Except String String :=
  let filename := filenameOf tz item
  let filepath := pathJoin save_path filename
  if (files filepath).isSome then
    (files, .ok filepath)
  else
    match fetch (downloadUrlOf item) with
    | none => (files, .error "download failed")
    | some bytes => (fsWrite files filepath bytes, .ok filepath)

/-- Modelled from the spec: the Store-wired download step is absent from
`src/task.rs` (`main.rs` passes the database pool as a sixth argument to
`Task::new`, which the `task.rs` in the tree does not accept, and
`upsert_media`/`update_hash` in `db.rs` have no caller there).  Per §4.3 the
Store MUST be updated — media upserted, hash recorded — after every successful
fetch, before the item is considered done; on a skip no fetch occurs. -/
def downloadAndRecord (fetch : String → Option (List Nat))
    (files : String → Option (List Nat)) (media_table : List MediaRow)
    (save_path tweet_id : String) (tz : Int → Int) (item : MediaItem) :
    List MediaRow × (String → Option (List Nat)) × Bool :=
  let filename := filenameOf tz item
  let filepath := pathJoin save_path filename
  if (files filepath).isSome then
    (media_table, files, true)
  else
    match fetch (downloadUrlOf item) with
    | none => (media_table, files, false)
    | some bytes =>
      let files := fsWrite files filepath bytes
      let table := upsert_media media_table tweet_id item.url (some filename)
      let table := update_hash table item.url (calculate_hash bytes)
      (table, files, true)

/-! ## `Task::execute`: the bounded pool and the pagination loop

`stream::iter(..).map(..).buffer_unordered(n)` keeps at most `n` download
futures in flight and yields their results in completion order.  It is
embedded as a small-step relation: a `dispatch` step starts the next item
when fewer than `n` are in flight, a `complete` step finishes any in-flight
item.  Per-item outcomes are abstracted to `Bool` (`result.is_ok()`). -/

/-- Pool state: items not yet started, items in flight, finished results. -/
structure PoolState (α : Type) where
  pending : List α
  inflight : List α
  done : List α
deriving DecidableEq, Repr

/-- One scheduler step of `buffer_unordered n`. -/
inductive PoolStep {α : Type} (n : Nat) : PoolState α → PoolState α → Prop where
  | dispatch (x : α) (rest inflight done : List α) (h : inflight.length < n) :
      PoolStep n ⟨x :: rest, inflight, done⟩ ⟨rest, x :: inflight, done⟩
  | complete (pending l₁ l₂ done : List α) (x : α) :
      PoolStep n ⟨pending, l₁ ++ x :: l₂, done⟩ ⟨pending, l₁ ++ l₂, x :: done⟩

/-- Reachability in the pool scheduler. -/
def PoolReach {α : Type} (n : Nat) : PoolState α → PoolState α → Prop :=
  Relation.ReflTransGen (PoolStep n)

/-- The pagination loop of `Task::execute`, the remote abstracted as the list
of successive page responses (per-item success flags, bottom cursor).
Returns how many pages were fetched and the accumulated success count:
an empty page breaks before downloading, an absent cursor breaks after. -/
def runPages : List (List Bool × Option String) → Nat × Nat
  | [] => (0, 0)
  | (items, next_cursor) :: rest =>
    if items.isEmpty then (1, 0)
    else
      let successful := items.countP id
      match next_cursor with
      | none => (1, successful)
      | some _ =>
        let r := runPages rest
        (r.1 + 1, r.2 + successful)

/-- The loop's termination condition for one page response. -/
def pageTerminal (p : List Bool × Option String) : Prop :=
  p.1 = [] ∨ p.2 = none

instance (p : List Bool × Option String) : Decidable (pageTerminal p) := by
  unfold pageTerminal; infer_instance

/-! ## Theorems -/

/-- C7: starting from a table with no row for `tweet_id`, upserting twice
with the same id leaves exactly one row for it, carrying the second call's
`full_text` and the first call's `screen_name` and `tweet_time`; the first
upsert on the absent id inserted exactly that row. -/
theorem c7_upsert_tweet_semantics (table : List TweetRow) (tid s1 p1 : String)
    (t1 : Option String) (s2 p2 : String) (t2 : Option String)
    (habs : ∀ r ∈ table, r.tweet_id ≠ tid) :
    (upsert_tweet (upsert_tweet table tid s1 p1 t1) tid s2 p2 t2).filter
        (fun r => r.tweet_id == tid) = [⟨tid, s1, p1, t2⟩] ∧
    (upsert_tweet table tid s1 p1 t1).filter
        (fun r => r.tweet_id == tid) = [⟨tid, s1, p1, t1⟩] := by
  have hany : table.any (fun r => r.tweet_id == tid) = false := by
    simp only [List.any_eq_false, beq_iff_eq]
    exact habs
  have hfilter : table.filter (fun r => r.tweet_id == tid) = [] := by
    simp only [List.filter_eq_nil_iff, beq_iff_eq]
    exact habs
  have h1 : upsert_tweet table tid s1 p1 t1 = table ++ [⟨tid, s1, p1, t1⟩] := by
    simp [upsert_tweet, hany]
  have hmap : ∀ (T : List TweetRow), (∀ r ∈ T, r.tweet_id ≠ tid) →
      T.map (fun r => if r.tweet_id == tid then { r with full_text := t2 } else r)
        = T := by
    intro T hT
    induction T with
    | nil => rfl
    | cons r rs ih =>
      have hr : r.tweet_id ≠ tid := hT r (List.mem_cons_self r rs)
      have hrb : (r.tweet_id == tid) = false := beq_eq_false_iff_ne.mpr hr
      simp only [List.map_cons, hrb, Bool.false_eq_true, if_false]
      rw [ih (fun x hx => hT x (List.mem_cons_of_mem r hx))]
  constructor
  · rw [h1]
    have hany2 : (table ++ [(⟨tid, s1, p1, t1⟩ : TweetRow)]).any
        (fun r => r.tweet_id == tid) = true := by simp
    simp only [upsert_tweet, hany2, if_pos, List.map_append, hmap table habs,
      List.filter_append, hfilter, List.map_cons, List.map_nil]
    simp
  · rw [h1]
    simp only [List.filter_append, hfilter, List.nil_append]
    simp

/-- Witness for C7: both upserts evaluated at the empty table. -/
theorem c7_witness :
    (∀ r ∈ ([] : List TweetRow), r.tweet_id ≠ "1") ∧
    ((upsert_tweet (upsert_tweet [] "1" "alice" "2025-01-01" (some "a"))
          "1" "bob" "2026-01-01" (some "b")).filter
        (fun r => r.tweet_id == "1") =
      [⟨"1", "alice", "2025-01-01", some "b"⟩] ∧
    (upsert_tweet [] "1" "alice" "2025-01-01" (some "a")).filter
        (fun r => r.tweet_id == "1") =
      [⟨"1", "alice", "2025-01-01", some "a"⟩]) :=
  ⟨by simp,
   c7_upsert_tweet_semantics [] "1" "alice" "2025-01-01" (some "a")
     "bob" "2026-01-01" (some "b") (by simp)⟩

/-- C2: `verify_file` always returns `Ok`, and the boolean is `true` exactly
when a record for the URL exists with filename and hash set, the file
`baseDir/filename` is present, and its freshly computed SHA-256 lowercase-hex
hash equals the stored one. -/
theorem c2_verify_file_characterization (table : List MediaRow)
    (files : String → Option (List Nat)) (save_path media_url : String) :
    ∃ b, verify_file table files save_path media_url = .ok b ∧
      (b = true ↔ ∃ r filename expected_hash,
        get_media_by_url table media_url = some r ∧
        r.filename = some filename ∧ r.file_hash = some expected_hash ∧
        ∃ content, files (pathJoin save_path filename) = some content ∧
          calculate_hash content = expected_hash) := by
  cases hrec : get_media_by_url table media_url with
  | none =>
    refine ⟨false, by simp [verify_file, hrec], ?_⟩
    simp [hrec]
  | some record =>
    obtain ⟨rfn, rfh⟩ := record
    cases rfn with
    | none =>
      refine ⟨false, by simp [verify_file, hrec], ?_⟩
      simp only [Bool.false_eq_true, false_iff]
      rintro ⟨r, fn, eh, hr, hfn, -⟩
      injection hr with hr
      subst hr
      exact Option.noConfusion hfn
    | some filename =>
      cases rfh with
      | none =>
        refine ⟨false, by simp [verify_file, hrec], ?_⟩
        simp only [Bool.false_eq_true, false_iff]
        rintro ⟨r, fn, eh, hr, -, heh, -⟩
        injection hr with hr
        subst hr
        exact Option.noConfusion heh
      | some expected_hash =>
        cases hfp : files (pathJoin save_path filename) with
        | none =>
          refine ⟨false, by simp [verify_file, hrec, hfp], ?_⟩
          simp only [Bool.false_eq_true, false_iff]
          rintro ⟨r, fn, eh, hr, hfn, heh, content, hcontent, -⟩
          injection hr with hr
          subst hr
          obtain rfl : fn = filename := (Option.some_inj.mp hfn).symm
          rw [hfp] at hcontent
          exact Option.noConfusion hcontent
        | some content =>
          refine ⟨calculate_hash content == expected_hash,
            by simp [verify_file, hrec, hfp], ?_⟩
          constructor
          · intro hb
            exact ⟨⟨some filename, some expected_hash⟩, filename, expected_hash,
              rfl, rfl, rfl, content, hfp, beq_iff_eq.mp hb⟩
          · rintro ⟨r, fn, eh, hr, hfn, heh, content', hcontent, hhash⟩
            injection hr with hr
            subst hr
            obtain rfl : fn = filename := (Option.some_inj.mp hfn).symm
            obtain rfl : eh = expected_hash := (Option.some_inj.mp heh).symm
            rw [hfp] at hcontent
            obtain rfl : content' = content := (Option.some_inj.mp hcontent).symm
            exact beq_iff_eq.mpr hhash

/-! ### Variant selection (`max_by_key` over MP4-compatible renditions) -/

/-- Invariant of the `max_by_key` fold: the result is the accumulator or a
list element, dominates every list element, and dominates the accumulator. -/
theorem maxByKey_foldl_spec (key : Json → Nat) :
    ∀ (l : List Json) (acc : Option Json) (v : Json),
      l.foldl
        (fun acc v => match acc with
          | none => some v
          | some a => if key a ≤ key v then some v else some a) acc = some v →
      (acc = some v ∨ v ∈ l) ∧ (∀ w ∈ l, key w ≤ key v) ∧
        (∀ a, acc = some a → key a ≤ key v) := by
  intro l
  induction l with
  | nil =>
    intro acc v h
    simp only [List.foldl_nil] at h
    exact ⟨Or.inl h, by simp, fun a ha => by rw [ha] at h; cases h; exact Nat.le_refl _⟩
  | cons x xs ih =>
    intro acc v h
    simp only [List.foldl_cons] at h
    obtain ⟨hmem, hle, hacc⟩ := ih _ v h
    have hx : key x ≤ key v := by
      cases acc with
      | none => exact hacc x rfl
      | some a =>
        by_cases hax : key a ≤ key x
        · exact hacc x (by simp [hax])
        · exact Nat.le_trans (Nat.le_of_lt (Nat.lt_of_not_le hax)) (hacc a (by simp [hax]))
    refine ⟨?_, ?_, ?_⟩
    · cases acc with
      | none =>
        rcases hmem with hv | hv
        · exact Or.inr (by injection hv with hv; exact hv ▸ List.mem_cons_self x xs)
        · exact Or.inr (List.mem_cons_of_mem x hv)
      | some a =>
        by_cases hax : key a ≤ key x
        · rcases hmem with hv | hv
          · simp only [hax, if_true] at hv
            exact Or.inr (by injection hv with hv; exact hv ▸ List.mem_cons_self x xs)
          · exact Or.inr (List.mem_cons_of_mem x hv)
        · rcases hmem with hv | hv
          · simp only [hax, if_false] at hv
            exact Or.inl hv
          · exact Or.inr (List.mem_cons_of_mem x hv)
    · intro w hw
      rcases List.mem_cons.mp hw with rfl | hw
      · exact hx
      · exact hle w hw
    · intro a ha
      subst ha
      by_cases hax : key a ≤ key x
      · exact Nat.le_trans hax hx
      · exact hacc a (by simp [hax])

/-- Embeds `max_by_key` over a list returns a maximal element of it. -/
theorem maxByKeyLast_spec (key : Json → Nat) (l : List Json) (v : Json)
    (h : maxByKeyLast key l = some v) : v ∈ l ∧ ∀ w ∈ l, key w ≤ key v := by
  obtain ⟨hmem, hle, -⟩ := maxByKey_foldl_spec key l none v h
  rcases hmem with hv | hv
  · exact Option.noConfusion hv
  · exact ⟨hv, hle⟩

/-- The `max_by_key` fold never loses a `some` accumulator. -/
theorem maxByKey_foldl_isSome (key : Json → Nat) :
    ∀ (l : List Json) (a : Json),
      (l.foldl
        (fun acc v => match acc with
          | none => some v
          | some a => if key a ≤ key v then some v else some a)
        (some a)).isSome = true := by
  intro l
  induction l with
  | nil => intro a; rfl
  | cons x xs ih =>
    intro a
    simp only [List.foldl_cons]
    by_cases hax : key a ≤ key x
    · simpa [hax] using ih x
    · simpa [hax] using ih a

/-- Embeds `max_by_key` of a non-empty list is `Some`. -/
theorem maxByKeyLast_isSome (key : Json → Nat) (l : List Json) (h : l ≠ []) :
    (maxByKeyLast key l).isSome = true := by
  cases l with
  | nil => exact absurd rfl h
  | cons x xs => exact maxByKey_foldl_isSome key xs x

/-- A video media entry with variants but no MP4-compatible one contributes
nothing (and no error). -/
theorem extractOneMedia_no_mp4 (ts : Int) (media : Json) (variants : List Json)
    (htype : ((media.get "type").bind Json.asStr).getD "photo" = "video" ∨
      ((media.get "type").bind Json.asStr).getD "photo" = "animated_gif")
    (hvar : (media.getPath ["video_info", "variants"]).bind Json.asArray =
      some variants)
    (hmp4 : variants.filter isMp4Variant = []) :
    extractOneMedia ts media = [] := by
  have hnp : ((media.get "type").bind Json.asStr).getD "photo" ≠ "photo" := by
    rcases htype with h | h <;> rw [h] <;> decide
  unfold extractOneMedia
  rw [if_neg hnp, if_pos htype, hvar]
  simp [hmp4, maxByKeyLast]

/-- The three renditions of the spec's variant-selection test case. -/
def exampleV800 : Json :=
  .obj [("content_type", .str "video/mp4"), ("bitrate", .num 800000),
        ("url", .str "https://video.example/800.mp4")]

def exampleV2000 : Json :=
  .obj [("content_type", .str "video/mp4"), ("bitrate", .num 2000000),
        ("url", .str "https://video.example/2000.mp4")]

def exampleV5000webm : Json :=
  .obj [("content_type", .str "video/webm"), ("bitrate", .num 5000000),
        ("url", .str "https://video.example/5000.webm")]

/-- A video media entry offering the three renditions. -/
def exampleVideoMedia : Json :=
  .obj [("type", .str "video"),
        ("video_info", .obj [("variants",
          .arr [exampleV800, exampleV2000, exampleV5000webm])])]

/-- C5: a selected rendition is MP4-compatible and of maximal bitrate among
the MP4-compatible renditions; with no MP4-compatible rendition the media
entry is skipped without error; on the spec's example the 2000 kbps MP4
rendition's URL is selected. -/
theorem c5_variant_selection :
    (∀ (variants : List Json) (v : Json),
        maxByKeyLast bitrateKey (variants.filter isMp4Variant) = some v →
        isMp4Variant v = true ∧
          ∀ w ∈ variants, isMp4Variant w = true → bitrateKey w ≤ bitrateKey v) ∧
    (∀ (ts : Int) (media : Json) (variants : List Json),
        (((media.get "type").bind Json.asStr).getD "photo" = "video" ∨
          ((media.get "type").bind Json.asStr).getD "photo" = "animated_gif") →
        (media.getPath ["video_info", "variants"]).bind Json.asArray =
          some variants →
        variants.filter isMp4Variant = [] →
        extractOneMedia ts media = []) ∧
    extractOneMedia 0 exampleVideoMedia =
      [⟨"https://video.example/2000.mp4", .Video, 0⟩] := by
  refine ⟨?_, extractOneMedia_no_mp4, ?_⟩
  · intro variants v h
    obtain ⟨hmem, hle⟩ := maxByKeyLast_spec bitrateKey _ v h
    exact ⟨(List.mem_filter.mp hmem).2,
      fun w hw hmp4 => hle w (List.mem_filter.mpr ⟨hw, hmp4⟩)⟩
  · rfl

/-- Witness for C5: the maximality conjunct applied to the example renditions,
whose selection evaluates to the 2000 kbps MP4 entry. -/
theorem c5_witness :
    maxByKeyLast bitrateKey
        ([exampleV800, exampleV2000, exampleV5000webm].filter isMp4Variant) =
      some exampleV2000 ∧
    (isMp4Variant exampleV2000 = true ∧
      ∀ w ∈ [exampleV800, exampleV2000, exampleV5000webm],
        isMp4Variant w = true → bitrateKey w ≤ bitrateKey exampleV2000) :=
  ⟨rfl, c5_variant_selection.1 [exampleV800, exampleV2000, exampleV5000webm]
    exampleV2000 rfl⟩

/-- An MP4-compatible rendition carrying no `bitrate` field. -/
def exampleVNoBitrate : Json :=
  .obj [("content_type", .str "video/mp4"),
        ("url", .str "https://video.example/nobr.mp4")]

/-- C10: a rendition without a numeric bitrate gets key 0; a non-empty
MP4-compatible filter always selects something (in particular a lone
MP4-compatible rendition, bitrate or not, is selected); and a selected
rendition without numeric bitrate implies every MP4-compatible rendition has
key 0 — it is never preferred over a positive bitrate. -/
theorem c10_missing_bitrate :
    (∀ v : Json, (v.get "bitrate").bind Json.asU64 = none → bitrateKey v = 0) ∧
    (∀ variants : List Json, variants.filter isMp4Variant ≠ [] →
      (maxByKeyLast bitrateKey (variants.filter isMp4Variant)).isSome = true) ∧
    (∀ (variants : List Json) (v : Json),
      variants.filter isMp4Variant = [v] →
      maxByKeyLast bitrateKey (variants.filter isMp4Variant) = some v) ∧
    (∀ (variants : List Json) (v : Json),
      maxByKeyLast bitrateKey (variants.filter isMp4Variant) = some v →
      (v.get "bitrate").bind Json.asU64 = none →
      ∀ w ∈ variants, isMp4Variant w = true → bitrateKey w = 0) := by
  refine ⟨?_, ?_, ?_, ?_⟩
  · intro v h
    simp [bitrateKey, h]
  · intro variants h
    exact maxByKeyLast_isSome bitrateKey _ h
  · intro variants v h
    rw [h]
    rfl
  · intro variants v hsel hnone w hw hmp4
    have hv0 : bitrateKey v = 0 := by simp [bitrateKey, hnone]
    obtain ⟨-, hle⟩ := maxByKeyLast_spec bitrateKey _ v hsel
    have := hle w (List.mem_filter.mpr ⟨hw, hmp4⟩)
    omega

/-- Witness for C10: the lone bitrate-less MP4 rendition is selected, and the
theorem's conjuncts applied at it. -/
theorem c10_witness :
    ([exampleVNoBitrate].filter isMp4Variant ≠ [] ∧
      (maxByKeyLast bitrateKey ([exampleVNoBitrate].filter isMp4Variant)).isSome
        = true) ∧
    (maxByKeyLast bitrateKey ([exampleVNoBitrate].filter isMp4Variant) =
        some exampleVNoBitrate ∧
      ∀ w ∈ [exampleVNoBitrate], isMp4Variant w = true → bitrateKey w = 0) := by
  have hne : [exampleVNoBitrate].filter isMp4Variant ≠ [] := by
    rw [show [exampleVNoBitrate].filter isMp4Variant = [exampleVNoBitrate]
      from rfl]
    exact List.cons_ne_nil _ _
  exact ⟨⟨hne, c10_missing_bitrate.2.1 [exampleVNoBitrate] hne⟩,
    ⟨rfl, c10_missing_bitrate.2.2.2 [exampleVNoBitrate] exampleVNoBitrate rfl rfl⟩⟩

/-! ### The bounded pool -/

/-- One pool step keeps the in-flight count within the bound. -/
theorem poolStep_bound {α : Type} {n : Nat} {s t : PoolState α}
    (h : PoolStep n s t) (hs : s.inflight.length ≤ n) :
    t.inflight.length ≤ n := by
  cases h with
  | dispatch x rest inflight done hlt => simpa using hlt
  | complete pending l₁ l₂ done x =>
    simp only [List.length_append, List.length_cons] at hs ⊢
    omega

/-- One pool step permutes the combined multiset of items. -/
theorem poolStep_perm {α : Type} {n : Nat} {s t : PoolState α}
    (h : PoolStep n s t) :
    (t.pending ++ t.inflight ++ t.done).Perm
      (s.pending ++ s.inflight ++ s.done) := by
  cases h with
  | dispatch x rest inflight done hlt =>
    simp only [List.append_assoc]
    exact List.perm_middle
  | complete pending l₁ l₂ done x =>
    simp only [List.append_assoc]
    refine List.Perm.append_left pending ?_
    refine List.Perm.append_left l₁ ?_
    exact List.perm_middle

/-- The in-flight bound is invariant under reachability. -/
theorem poolReach_bound {α : Type} {n : Nat} {s t : PoolState α}
    (h : PoolReach n s t) (hs : s.inflight.length ≤ n) :
    t.inflight.length ≤ n := by
  induction h with
  | refl => exact hs
  | tail _ hbc ih => exact poolStep_bound hbc ih

/-- The item multiset is invariant under reachability. -/
theorem poolReach_perm {α : Type} {n : Nat} {s t : PoolState α}
    (h : PoolReach n s t) :
    (t.pending ++ t.inflight ++ t.done).Perm
      (s.pending ++ s.inflight ++ s.done) := by
  induction h with
  | refl => exact List.Perm.refl _
  | tail _ hbc ih => exact (poolStep_perm hbc).trans ih

/-- C4: from the initial pool state, every reachable state has at most `n`
downloads in flight; a drained state's success count is the number of
successful outcomes of the page; and a 5-item page whose items 2 and 4 fail
contributes 3 successes while the loop proceeds to the next page. -/
theorem c4_bulkhead (n : Nat) (outcomes : List Bool) (s : PoolState Bool)
    (hreach : PoolReach n ⟨outcomes, [], []⟩ s) :
    s.inflight.length ≤ n ∧
    (s.pending = [] → s.inflight = [] →
      s.done.countP id = outcomes.countP id) ∧
    (∀ (rest : List (List Bool × Option String)) (cur : String),
      runPages (([true, false, true, false, true], some cur) :: rest) =
        ((runPages rest).1 + 1, (runPages rest).2 + 3)) := by
  refine ⟨poolReach_bound hreach (by simp), ?_, ?_⟩
  · intro hp hi
    have hperm := poolReach_perm hreach
    rw [hp, hi] at hperm
    simp only [List.nil_append, List.append_nil] at hperm
    exact hperm.countP_eq id
  · intro rest cur
    have hc : List.countP id [true, false, true, false, true] = 3 := by decide
    simp [runPages, hc]

/-- Witness for C4: a one-item page pushed through dispatch and completion
under bound 1, and the example page evaluated. -/
theorem c4_witness :
    ((⟨[], [], [true]⟩ : PoolState Bool).inflight.length ≤ 1 ∧
      (([] : List Bool) = [] → ([] : List Bool) = [] →
        List.countP id [true] = List.countP id [true])) ∧
    runPages [([true, false, true, false, true], some "c")] = (1, 3) := by
  have h1 : PoolStep 1 (⟨[true], [], []⟩ : PoolState Bool) ⟨[], [true], []⟩ :=
    PoolStep.dispatch true [] [] [] (by decide)
  have h2 : PoolStep 1 (⟨[], [true], []⟩ : PoolState Bool) ⟨[], [], [true]⟩ :=
    PoolStep.complete [] [] [] [] true
  have h := c4_bulkhead 1 [true] ⟨[], [], [true]⟩
    (Relation.ReflTransGen.head h1 (Relation.ReflTransGen.single h2))
  exact ⟨⟨h.1, h.2.1⟩, by simpa using h.2.2 [] "c"⟩

/-- C6: the pagination loop stops exactly at the first terminal page (empty
reference list or absent cursor): it fetches `i + 1` pages when page `i` is
the first terminal one. -/
theorem c6_pagination_terminates (ps : List (List Bool × Option String))
    (i : Nat) (hi : i < ps.length) (hterm : pageTerminal (ps.get ⟨i, hi⟩))
    (hfirst : ∀ j (hj : j < i), ¬ pageTerminal (ps.get ⟨j, hj.trans hi⟩)) :
    (runPages ps).1 = i + 1 := by
  induction ps generalizing i with
  | nil => exact absurd hi (Nat.not_lt_zero i)
  | cons p rest ih =>
    obtain ⟨items, next⟩ := p
    cases i with
    | zero =>
      rcases hterm with h1 | h2
      · subst h1
        simp [runPages]
      · cases items with
        | nil => simp [runPages]
        | cons b bs =>
          subst h2
          simp [runPages]
    | succ i =>
      have hnt := hfirst 0 (Nat.succ_pos i)
      rw [pageTerminal, not_or] at hnt
      obtain ⟨hne, hnc⟩ := hnt
      cases hnext : next with
      | none => exact absurd hnext hnc
      | some c =>
        have hie : items.isEmpty = false := by
          cases items with
          | nil => exact absurd rfl hne
          | cons b bs => rfl
        have hi' : i < rest.length := Nat.lt_of_succ_lt_succ hi
        have hr := ih i hi' hterm (fun j hj => hfirst (j + 1) (Nat.succ_lt_succ hj))
        simp only [runPages, hie, Bool.false_eq_true, if_false, hnext]
        omega

/-- Witness for C6: two pages, the second empty; the loop fetches both and
stops. -/
theorem c6_witness :
    pageTerminal (([([true], some "c"), ([], none)].get ⟨1, by decide⟩ :
      List Bool × Option String)) ∧
    (runPages [([true], some "c"), ([], none)]).1 = 2 := by
  refine ⟨Or.inl rfl, ?_⟩
  exact c6_pagination_terminates [([true], some "c"), ([], none)] 1 (by decide)
    (Or.inl rfl) (fun j hj => by
      interval_cases j
      · simp [pageTerminal])

/-! ### Destination filenames: characterizing `rsplit`/`split` -/

/-- Embeds `takeWhile` over an append: the whole left part when it all satisfies the
predicate, else just its prefix. -/
theorem takeWhile_append_eq (q : Char → Bool) (xs ys : List Char) :
    (xs ++ ys).takeWhile q =
      if xs.all q then xs ++ ys.takeWhile q else xs.takeWhile q := by
  induction xs with
  | nil => simp
  | cons x xs ih =>
    by_cases hx : q x
    · simp only [List.cons_append, List.takeWhile_cons, hx, if_true,
        List.all_cons, Bool.true_and, ih]
      by_cases ha : xs.all q <;> simp [ha]
    · simp only [List.cons_append, List.takeWhile_cons, hx, List.all_cons]
      simp [hx]

/-- The maximal `sep`-free suffix of `l`: the first segment Rust
`rsplit(sep)` yields. -/
def afterLastChar (sep : Char) (l : List Char) : List Char :=
  (l.reverse.takeWhile (fun c => c != sep)).reverse

theorem all_bne_iff (sep : Char) (l : List Char) :
    l.all (fun c => c != sep) = true ↔ sep ∉ l := by
  simp only [List.all_eq_true, bne_iff_ne]
  constructor
  · intro h hs
    exact h sep hs rfl
  · intro h x hx he
    exact h (he ▸ hx)

theorem afterLastChar_cons_sep (sep : Char) (rest : List Char) :
    afterLastChar sep (sep :: rest) = afterLastChar sep rest := by
  unfold afterLastChar
  rw [List.reverse_cons, takeWhile_append_eq]
  by_cases ha : rest.reverse.all (fun c => c != sep)
  · rw [if_pos ha]
    have : List.takeWhile (fun c => c != sep) [sep] = [] := by simp
    rw [this, List.append_nil,
      List.takeWhile_eq_self_iff.mpr (List.all_eq_true.mp ha)]
  · rw [if_neg ha]

theorem afterLastChar_cons_ne_all (sep c : Char) (rest : List Char)
    (hc : (c != sep) = true) (ha : rest.all (fun x => x != sep) = true) :
    afterLastChar sep (c :: rest) = c :: rest := by
  unfold afterLastChar
  rw [List.reverse_cons, takeWhile_append_eq, List.all_reverse, if_pos ha]
  simp only [List.takeWhile_cons, hc, if_true, List.takeWhile_nil]
  rw [List.reverse_append, List.reverse_reverse]
  rfl

theorem afterLastChar_cons_ne_not_all (sep c : Char) (rest : List Char)
    (ha : rest.all (fun x => x != sep) = false) :
    afterLastChar sep (c :: rest) = afterLastChar sep rest := by
  unfold afterLastChar
  rw [List.reverse_cons, takeWhile_append_eq, List.all_reverse, if_neg (by simp [ha])]

/-- The last segment of `split(sep)` is the maximal `sep`-free suffix, and
there is a single segment exactly when `sep` does not occur. -/
theorem splitChar_getLast?_spec (sep : Char) (l : List Char) :
    (splitChar sep l).getLast? = some (afterLastChar sep l) ∧
      ((splitChar sep l).length = 1 ↔ sep ∉ l) := by
  induction l with
  | nil =>
    refine ⟨rfl, ?_⟩
    simp [splitChar]
  | cons c rest ih =>
    by_cases hc : c = sep
    · subst hc
      have hS := splitChar_ne_nil c rest
      constructor
      · rw [show splitChar c (c :: rest) = [] :: splitChar c rest from by
          simp [splitChar]]
        cases hS' : splitChar c rest with
        | nil => exact absurd hS' hS
        | cons s ss =>
          rw [List.getLast?_cons_cons, ← hS', ih.1, afterLastChar_cons_sep]
      · rw [show splitChar c (c :: rest) = [] :: splitChar c rest from by
          simp [splitChar]]
        constructor
        · intro h
          exfalso
          simp only [List.length_cons, Nat.add_eq_right] at h
          exact hS (List.length_eq_zero.mp h)
        · intro h
          exact absurd (List.mem_cons_self c rest) h
    · have hq : (c != sep) = true := bne_iff_ne.mpr hc
      have hS := splitChar_ne_nil sep rest
      cases hS' : splitChar sep rest with
      | nil => exact absurd hS' hS
      | cons h t =>
        have hsplit : splitChar sep (c :: rest) = (c :: h) :: t := by
          simp only [splitChar, if_neg hc, hS']
        rw [hsplit]
        have ihl := ih.1
        have ihn := ih.2
        rw [hS'] at ihl ihn
        constructor
        · cases t with
          | nil =>
            have hrest : sep ∉ rest := ihn.mp (by rfl)
            have hall : rest.all (fun x => x != sep) = true :=
              (all_bne_iff sep rest).mpr hrest
            have hh : h = afterLastChar sep rest := by
              simpa using ihl
            have hres : afterLastChar sep rest = rest := by
              unfold afterLastChar
              rw [List.takeWhile_eq_self_iff.mpr
                (List.all_eq_true.mp (by rwa [List.all_reverse])),
                List.reverse_reverse]
            rw [afterLastChar_cons_ne_all sep c rest hq hall]
            simp [hh, hres]
          | cons d ds =>
            have hlen : ¬ (splitChar sep rest).length = 1 := by
              rw [hS']
              simp
            have hmem : sep ∈ rest := by
              by_contra hmem
              exact hlen (by rw [hS']; exact ihn.mpr hmem)
            have hall : rest.all (fun x => x != sep) = false := by
              rcases Bool.eq_false_or_eq_true (rest.all (fun x => x != sep))
                with hta | hfa
              · exact absurd hmem (((all_bne_iff sep rest).mp hta))
              · exact hfa
            rw [List.getLast?_cons_cons, afterLastChar_cons_ne_not_all sep c rest hall]
            rw [List.getLast?_cons_cons] at ihl
            exact ihl
        · simp only [List.length_cons] at ihn ⊢
          rw [List.mem_cons]
          constructor
          · intro hlen
            intro hor
            rcases hor with he | hm
            · exact hc he.symm
            · exact (ihn.mp hlen) hm
          · intro hnor
            exact ihn.mpr (fun hm => hnor (Or.inr hm))

/-- The first segment of `split(sep)` is `takeWhile (· != sep)`. -/
theorem splitChar_head?_spec (sep : Char) (l : List Char) :
    (splitChar sep l).head? = some (l.takeWhile (fun c => c != sep)) := by
  induction l with
  | nil => rfl
  | cons c rest ih =>
    by_cases hc : c = sep
    · subst hc
      rw [show splitChar c (c :: rest) = [] :: splitChar c rest from by
        simp [splitChar]]
      simp
    · have hq : (c != sep) = true := bne_iff_ne.mpr hc
      cases hS' : splitChar sep rest with
      | nil => exact absurd hS' (splitChar_ne_nil sep rest)
      | cons h t =>
        have hsplit : splitChar sep (c :: rest) = (c :: h) :: t := by
          simp only [splitChar, if_neg hc, hS']
        rw [hsplit]
        rw [hS'] at ih
        simp only [List.head?_cons, Option.some_inj] at ih ⊢
        simp [List.takeWhile_cons, hq, ih]

/-- Embeds `rsplit(sep).next()` always succeeds, yielding the maximal `sep`-free
suffix (so the `unwrap_or` defaults in `download_media` are unreachable). -/
theorem rsplitNext_eq (sep : Char) (l : List Char) :
    rsplitNext sep l = some (afterLastChar sep l) := by
  unfold rsplitNext
  rw [List.head?_reverse]
  exact (splitChar_getLast?_spec sep l).1

/-- Embeds `split(sep).next()` always succeeds, yielding `takeWhile (· != sep)`. -/
theorem splitNext_eq (sep : Char) (l : List Char) :
    splitNext sep l = some (l.takeWhile (fun c => c != sep)) :=
  splitChar_head?_spec sep l

/-- Spec-side (§4.3) media id: the last `/`-segment of the URL up to its
first `'.'`. -/
def specMediaIdChars (url : String) : List Char :=
  (afterLastChar '/' url.data).takeWhile (fun c => c != '.')

/-- Spec-side extension, amended: `mp4` for videos; for images the suffix of
the URL after its last `'.'`, the whole URL when it has none. -/
def specExtChars (kind : MediaType) (url : String) : List Char :=
  match kind with
  | .Video => "mp4".data
  | .Image => afterLastChar '.' url.data

/-- Spec-side destination filename `{local-date}-{media-id}.{ext}` with the
amended extension rule. -/
def specFilename (tz : Int → Int) (postedAt : Int) (url : String)
    (kind : MediaType) : String :=
  String.mk (dateStrLocal tz postedAt ++ '-' :: specMediaIdChars url
    ++ '.' :: specExtChars kind url)

/-- The claim's extension rule as literally stated: for images, the URL's
file extension with default `jpg` when the URL contains no `'.'`. -/
def claimedExtChars (kind : MediaType) (url : String) : List Char :=
  match kind with
  | .Video => "mp4".data
  | .Image =>
    if url.data.contains '.' then afterLastChar '.' url.data else "jpg".data

/-- The claim's destination filename with the literal `jpg`-default rule. -/
def claimedFilename (tz : Int → Int) (postedAt : Int) (url : String)
    (kind : MediaType) : String :=
  String.mk (dateStrLocal tz postedAt ++ '-' :: specMediaIdChars url
    ++ '.' :: claimedExtChars kind url)

/-- C3 counterexample: for an image URL without any `'.'` the code uses the
whole URL as the extension, never the claimed `jpg` default. -/
theorem c3_counterexample :
    filenameOf (fun _ => 0) ⟨"noext", .Image, 0⟩ ≠
      claimedFilename (fun _ => 0) 0 "noext" MediaType.Image := by
  decide

/-- C3 (amended): the destination filename is exactly
`{local-date}-{media-id}.{ext}` with `media-id` the last `/`-segment up to
its first `'.'` and `ext` `mp4` for videos or the suffix after the URL's
last `'.'` (the whole URL when dotless) for images — a pure function of
`(postedAt, sourceUrl, kind)` given the local time zone. -/
theorem c3_filename_deterministic (tz : Int → Int) (item : MediaItem) :
    filenameOf tz item =
      specFilename tz item.timestamp item.url item.media_type := by
  unfold filenameOf specFilename
  have hmid : mediaIdChars item = specMediaIdChars item.url := by
    unfold mediaIdChars specMediaIdChars
    rw [rsplitNext_eq, Option.some_bind, splitNext_eq, Option.getD_some]
  have hext : extChars item = specExtChars item.media_type item.url := by
    unfold extChars specExtChars
    cases item.media_type with
    | Image => rw [rsplitNext_eq, Option.getD_some]
    | Video => rfl
  rw [hmid, hext]

/-! ### Cursor extraction: the last `cursor-bottom` match wins -/

/-- The cursor candidate an entry contributes: its `content/value` string when
its `entryId` contains `"cursor-bottom"`. -/
def entryCursorValue (entry : Json) : Option String :=
  if containsSubstr "cursor-bottom".data
      ((((entry.get "entryId").bind Json.asStr).getD "").data) then
    (entry.getPath ["content", "value"]).bind Json.asStr
  else none

/-- The cursor candidates one instruction's entries contribute, in order. -/
def instructionCursors (instruction : Json) : List String :=
  match (instruction.get "entries").bind Json.asArray with
  | some entries => entries.filterMap entryCursorValue
  | none => []

/-- All cursor candidates of a page, in document order. -/
def cursorCandidates (instructions : List Json) : List String :=
  instructions.flatMap instructionCursors

theorem entryStep_snd (parseTs : String → Option Int)
    (acc : List MediaItem × Option String) (entry : Json) :
    (entryStep parseTs acc entry).2 = (entryCursorValue entry).or acc.2 := by
  simp only [entryStep, entryCursorValue]
  by_cases hcb : containsSubstr "cursor-bottom".data
      ((((entry.get "entryId").bind Json.asStr).getD "").data)
  · rw [if_pos hcb, if_pos hcb]
    cases (entry.getPath ["content", "value"]).bind Json.asStr with
    | none =>
      cases (entry.getPath ["content", "items"]).bind Json.asArray <;> rfl
    | some cv =>
      cases (entry.getPath ["content", "items"]).bind Json.asArray <;> rfl
  · rw [if_neg hcb, if_neg hcb]
    cases (entry.getPath ["content", "items"]).bind Json.asArray <;> rfl

theorem or_getLast?_cons (c : String) (l : List String) (d : Option String) :
    ((c :: l).getLast?).or d = (l.getLast?).or (some c) := by
  cases l with
  | nil => rfl
  | cons e es =>
    rw [List.getLast?_cons_cons]
    cases hgl : (e :: es).getLast? with
    | none => exact absurd (List.getLast?_eq_none_iff.mp hgl) (List.cons_ne_nil e es)
    | some z => rfl

theorem or_getLast?_append (xs ys : List String) (d : Option String) :
    ((xs ++ ys).getLast?).or d = (ys.getLast?).or ((xs.getLast?).or d) := by
  cases ys with
  | nil => rw [List.append_nil]; rfl
  | cons y ys' =>
    rw [List.getLast?_append_of_ne_nil xs (List.cons_ne_nil y ys')]
    cases hgl : (y :: ys').getLast? with
    | none =>
      exact absurd (List.getLast?_eq_none_iff.mp hgl) (List.cons_ne_nil y ys')
    | some z => rfl

theorem foldl_entryStep_snd (parseTs : String → Option Int) :
    ∀ (entries : List Json) (acc : List MediaItem × Option String),
      (entries.foldl (entryStep parseTs) acc).2 =
        ((entries.filterMap entryCursorValue).getLast?).or acc.2 := by
  intro entries
  induction entries with
  | nil => intro acc; rfl
  | cons e es ih =>
    intro acc
    rw [List.foldl_cons, ih, List.filterMap_cons]
    cases hce : entryCursorValue e with
    | none => rw [entryStep_snd, hce]; rfl
    | some c => rw [or_getLast?_cons, entryStep_snd, hce]; rfl

theorem instructionStep_snd (parseTs : String → Option Int)
    (acc : List MediaItem × Option String) (instruction : Json) :
    (instructionStep parseTs acc instruction).2 =
      ((instructionCursors instruction).getLast?).or acc.2 := by
  unfold instructionStep instructionCursors
  cases (instruction.get "moduleItems").bind Json.asArray with
  | none =>
    cases (instruction.get "entries").bind Json.asArray with
    | none => rfl
    | some entries => exact foldl_entryStep_snd parseTs entries acc
  | some mis =>
    cases (instruction.get "entries").bind Json.asArray with
    | none => rfl
    | some entries => exact foldl_entryStep_snd parseTs entries _

theorem foldl_instructionStep_snd (parseTs : String → Option Int) :
    ∀ (instructions : List Json) (acc : List MediaItem × Option String),
      (instructions.foldl (instructionStep parseTs) acc).2 =
        ((cursorCandidates instructions).getLast?).or acc.2 := by
  intro instructions
  induction instructions with
  | nil => intro acc; rfl
  | cons i is ih =>
    intro acc
    rw [List.foldl_cons, ih,
      show cursorCandidates (i :: is) =
        instructionCursors i ++ cursorCandidates is from rfl,
      or_getLast?_append, instructionStep_snd]

/-- C9: when the page parses, the returned bottom cursor is the value of the
last matching `cursor-bottom` entry (with a string `content/value`) in
document order — absent when no such entry exists. -/
theorem c9_last_cursor_wins (parseTs : String → Option Int) (raw : Json)
    (items : List MediaItem) (cur : Option String) (instructions : List Json)
    (hinstr : (raw.getPath
        ["data", "user", "result", "timeline_v2", "timeline",
          "instructions"]).bind Json.asArray = some instructions)
    (hok : parse_user_media_response parseTs raw = .ok (items, cur)) :
    cur = (cursorCandidates instructions).getLast? := by
  unfold parse_user_media_response at hok
  rw [hinstr] at hok
  injection hok with hok
  have hsnd := congrArg Prod.snd hok
  rw [foldl_instructionStep_snd] at hsnd
  simpa using hsnd.symm

/-- A `cursor-bottom` sentinel entry carrying value `v`. -/
def exampleCursorEntry (v : String) : Json :=
  .obj [("entryId", .str "cursor-bottom-777"),
        ("content", .obj [("value", .str v)])]

/-- An instruction whose entry list carries two bottom cursors. -/
def exampleCursorInstruction : Json :=
  .obj [("entries", .arr [exampleCursorEntry "CUR1", exampleCursorEntry "CUR2"])]

/-- A timeline response whose only instruction is `exampleCursorInstruction`. -/
def exampleTimeline : Json :=
  .obj [("data", .obj [("user", .obj [("result", .obj [("timeline_v2",
    .obj [("timeline", .obj [("instructions",
      .arr [exampleCursorInstruction])])])])])])]

/-- Witness for C9: with two `cursor-bottom` entries the parser returns the
second value. -/
theorem c9_witness :
    parse_user_media_response (fun _ => none) exampleTimeline =
      .ok ([], some "CUR2") ∧
    (some "CUR2" : Option String) =
      (cursorCandidates [exampleCursorInstruction]).getLast? :=
  ⟨rfl, c9_last_cursor_wins (fun _ => none) exampleTimeline [] (some "CUR2")
    [exampleCursorInstruction] rfl rfl⟩

/-! ### Timestamp parse failures -/

/-- The per-media extraction only copies the resolved timestamp into the
produced items. -/
theorem extractOneMedia_map_ts (t : Int) (m : Json) :
    (extractOneMedia t m).map (fun x => { x with timestamp := 0 }) =
      extractOneMedia 0 m := by
  simp only [extractOneMedia]
  by_cases h1 : ((m.get "type").bind Json.asStr).getD "photo" = "photo"
  · rw [if_pos h1, if_pos h1]
    cases (m.get "media_url_https").bind Json.asStr <;> rfl
  · rw [if_neg h1, if_neg h1]
    by_cases h2 : ((m.get "type").bind Json.asStr).getD "photo" = "video" ∨
        ((m.get "type").bind Json.asStr).getD "photo" = "animated_gif"
    · rw [if_pos h2, if_pos h2]
      cases (m.getPath ["video_info", "variants"]).bind Json.asArray with
      | none => rfl
      | some variants =>
        dsimp only
        cases (maxByKeyLast bitrateKey (variants.filter isMp4Variant)).bind
            (fun v => (v.get "url").bind Json.asStr) <;> rfl
    · rw [if_neg h2, if_neg h2]
      rfl

theorem flatMap_extractOneMedia_map_ts (t : Int) (arr : List Json) :
    (arr.flatMap (extractOneMedia t)).map (fun x => { x with timestamp := 0 }) =
      arr.flatMap (extractOneMedia 0) := by
  rw [List.map_flatMap]
  exact List.flatMap_congr (fun m _ => extractOneMedia_map_ts t m)

/-- C8: when a tweet's `created_at` fails to parse, extraction still produces
the same media references as under any other parse outcome, with the epoch
default timestamp; and page parsing only ever errors when the instruction
list itself is missing — never from a per-item failure. -/
theorem c8_bad_timestamp_not_dropped (p q : String → Option Int)
    (item result legacy : Json)
    (hres : item.getPath ["item", "itemContent", "tweet_results", "result"] =
      some result)
    (hleg : ((result.get "legacy") <|> (result.getPath ["tweet", "legacy"])) =
      some legacy)
    (hfail : ((legacy.get "created_at").bind Json.asStr).bind p = none) :
    extract_media_from_item p item =
      Option.map (List.map (fun m => { m with timestamp := 0 }))
        (extract_media_from_item q item) ∧
    (∀ (raw : Json) (e : String),
      parse_user_media_response p raw = .error e →
      (raw.getPath ["data", "user", "result", "timeline_v2", "timeline",
        "instructions"]).bind Json.asArray = none) := by
  constructor
  · simp only [extract_media_from_item, hres, hleg, hfail, Option.getD_none]
    cases (legacy.getPath ["extended_entities", "media"]).bind Json.asArray with
    | none => rfl
    | some arr =>
      dsimp only
      have hmap := flatMap_extractOneMedia_map_ts
        ((((legacy.get "created_at").bind Json.asStr).bind q).getD 0) arr
      cases he : (arr.flatMap (extractOneMedia
          ((((legacy.get "created_at").bind Json.asStr).bind q).getD 0))).isEmpty with
      | true =>
        have harr : arr.flatMap (extractOneMedia
            ((((legacy.get "created_at").bind Json.asStr).bind q).getD 0)) = [] :=
          List.isEmpty_iff.mp he
        have harr0 : arr.flatMap (extractOneMedia 0) = [] := by
          rw [← hmap, harr]
          rfl
        rw [if_pos (by rw [harr0]; rfl), if_pos rfl]
        rfl
      | false =>
        have hie : (List.map (fun x => ({ x with timestamp := 0 } : MediaItem))
            (arr.flatMap (extractOneMedia
              ((((legacy.get "created_at").bind Json.asStr).bind q).getD 0)))).isEmpty =
            (arr.flatMap (extractOneMedia
              ((((legacy.get "created_at").bind Json.asStr).bind q).getD 0))).isEmpty := by
          cases arr.flatMap (extractOneMedia
            ((((legacy.get "created_at").bind Json.asStr).bind q).getD 0)) <;> rfl
        have he0 : (arr.flatMap (extractOneMedia 0)).isEmpty = false := by
          rw [← hmap, hie]
          exact he
        rw [if_neg (by rw [he0]; exact Bool.false_ne_true),
          if_neg Bool.false_ne_true]
        exact congrArg some hmap.symm
  · intro raw e herr
    cases hbind : (raw.getPath ["data", "user", "result", "timeline_v2",
        "timeline", "instructions"]).bind Json.asArray with
    | none => rfl
    | some instructions =>
      unfold parse_user_media_response at herr
      rw [hbind] at herr
      cases herr

/-- The `legacy` payload of a tweet whose `created_at` does not parse. -/
def exampleBadTsLegacy : Json :=
  .obj [("created_at", .str "not-a-date"),
        ("extended_entities", .obj [("media", .arr [
          .obj [("type", .str "photo"),
                ("media_url_https", .str "https://pbs.example/img.jpg")]])])]

/-- A timeline item wrapping `exampleBadTsLegacy`. -/
def exampleBadTsItem : Json :=
  .obj [("item", .obj [("itemContent", .obj [("tweet_results",
    .obj [("result", .obj [("legacy", exampleBadTsLegacy)])])])])]

/-- Witness for C8: a photo tweet with an unparseable `created_at` still
yields its reference, at the epoch timestamp. -/
theorem c8_witness :
    ((exampleBadTsLegacy.get "created_at").bind Json.asStr).bind
        (fun _ => (none : Option Int)) = none ∧
    extract_media_from_item (fun _ => none) exampleBadTsItem =
      Option.map (List.map (fun m => { m with timestamp := 0 }))
        (extract_media_from_item (fun _ => some 1757000000) exampleBadTsItem) :=
  ⟨rfl,
    (c8_bad_timestamp_not_dropped (fun _ => none) (fun _ => some 1757000000)
      exampleBadTsItem (.obj [("legacy", exampleBadTsLegacy)])
      exampleBadTsLegacy rfl rfl rfl).1⟩

/-! ### The Store-wired download step (C1) -/

theorem find?_media_cons_pos (r : MediaRow) (rs : List MediaRow) (u : String)
    (hb : (r.media_url == u) = true) :
    (r :: rs).find? (fun x => x.media_url == u) = some r :=
  List.find?_cons_of_pos rs (show (fun x => x.media_url == u) r = true from hb)

theorem find?_media_cons_neg (r : MediaRow) (rs : List MediaRow) (u : String)
    (hb : (r.media_url == u) = false) :
    (r :: rs).find? (fun x => x.media_url == u) =
      rs.find? (fun x => x.media_url == u) :=
  List.find?_cons_of_neg rs
    (show ¬ (fun x => x.media_url == u) r = true from by
      rw [show (fun x => x.media_url == u) r = (r.media_url == u) from rfl, hb]
      exact Bool.false_ne_true)

theorem get_after_update_hash (T : List MediaRow) (u h : String) :
    get_media_by_url (update_hash T u h) u =
      (get_media_by_url T u).map (fun r => ⟨r.filename, some h⟩) := by
  induction T with
  | nil => rfl
  | cons r rs ih =>
    by_cases hb : (r.media_url == u) = true
    · unfold update_hash get_media_by_url
      rw [List.map_cons, if_pos hb,
        find?_media_cons_pos { r with file_hash := some h } _ u hb,
        find?_media_cons_pos r rs u hb]
      rfl
    · have hbf : (r.media_url == u) = false := Bool.not_eq_true _ ▸ hb
      unfold update_hash get_media_by_url at ih ⊢
      rw [List.map_cons, if_neg hb,
        find?_media_cons_neg r _ u hbf, find?_media_cons_neg r rs u hbf]
      exact ih

theorem get_map_set_filename (u fn : String) :
    ∀ (T : List MediaRow), T.any (fun r => r.media_url == u) = true →
      ∃ hh, get_media_by_url
        (T.map (fun r =>
          if r.media_url == u then { r with filename := some fn } else r)) u =
        some ⟨some fn, hh⟩ := by
  intro T
  induction T with
  | nil => intro hany; cases hany
  | cons r rs ih =>
    intro hany
    by_cases hb : (r.media_url == u) = true
    · refine ⟨r.file_hash, ?_⟩
      rw [List.map_cons, if_pos hb]
      unfold get_media_by_url
      rw [find?_media_cons_pos { r with filename := some fn } _ u hb]
      rfl
    · have hbf : (r.media_url == u) = false := Bool.not_eq_true _ ▸ hb
      have hany' : (rs.any (fun r => r.media_url == u)) = true := by
        simp only [List.any_cons, hbf, Bool.false_or] at hany
        exact hany
      obtain ⟨hh, hgh⟩ := ih hany'
      refine ⟨hh, ?_⟩
      rw [List.map_cons, if_neg hb]
      unfold get_media_by_url at hgh ⊢
      rw [find?_media_cons_neg r _ u hbf]
      exact hgh

theorem get_after_upsert_media (T : List MediaRow) (tid u fn : String) :
    ∃ hh, get_media_by_url (upsert_media T tid u (some fn)) u =
      some ⟨some fn, hh⟩ := by
  unfold upsert_media
  by_cases hany : (T.any (fun r => r.media_url == u)) = true
  · rw [if_pos hany]
    exact get_map_set_filename u fn T hany
  · rw [if_neg hany]
    refine ⟨none, ?_⟩
    have hfind : T.find? (fun r => r.media_url == u) = none := by
      rw [List.find?_eq_none]
      intro x hx hpx
      exact hany (List.any_eq_true.mpr ⟨x, hx, hpx⟩)
    unfold get_media_by_url
    rw [List.find?_append, hfind,
      find?_media_cons_pos ⟨tid, u, some fn, none⟩ [] u (beq_self_eq_true u)]
    rfl

/-- C1 (spec-modelled): when the fetch succeeds and the destination file was
absent, the download step reports the item done with the body written to the
destination and, already at that point, a Store row for the media URL whose
filename is the computed one and whose content hash is the SHA-256 of the
written bytes — the Store update precedes the item counting as done. -/
theorem c1_store_updated_before_done (fetch files : String → Option (List Nat))
    (media_table : List MediaRow) (save_path tweet_id : String)
    (tz : Int → Int) (item : MediaItem) (bytes : List Nat)
    (hnew : files (pathJoin save_path (filenameOf tz item)) = none)
    (hfetch : fetch (downloadUrlOf item) = some bytes) :
    (downloadAndRecord fetch files media_table save_path tweet_id tz item).2.2
      = true ∧
    get_media_by_url
      (downloadAndRecord fetch files media_table save_path tweet_id tz item).1
      item.url =
      some ⟨some (filenameOf tz item), some (calculate_hash bytes)⟩ ∧
    (downloadAndRecord fetch files media_table save_path tweet_id tz item).2.1
      (pathJoin save_path (filenameOf tz item)) = some bytes := by
  have hred : downloadAndRecord fetch files media_table save_path tweet_id tz
      item =
      (update_hash (upsert_media media_table tweet_id item.url
          (some (filenameOf tz item))) item.url (calculate_hash bytes),
        fsWrite files (pathJoin save_path (filenameOf tz item)) bytes, true) := by
    simp only [downloadAndRecord]
    rw [hnew, hfetch]
    rfl
  rw [hred]
  refine ⟨rfl, ?_, ?_⟩
  · rw [get_after_update_hash]
    obtain ⟨hh, hget⟩ := get_after_upsert_media media_table tweet_id item.url
      (filenameOf tz item)
    rw [hget]
    rfl
  · simp [fsWrite]

/-- Witness for C1: a fresh video item fetched into an empty store. -/
theorem c1_witness :
    ((fun _ => (none : Option (List Nat)))
        (pathJoin "dl" (filenameOf (fun _ => 0) ⟨"https://v/x.mp4", .Video, 0⟩))
      = none) ∧
    ((fun _ => some ([1, 2, 3] : List Nat))
        (downloadUrlOf ⟨"https://v/x.mp4", .Video, 0⟩) = some [1, 2, 3]) ∧
    ((downloadAndRecord (fun _ => some [1, 2, 3]) (fun _ => none) [] "dl" "t7"
        (fun _ => 0) ⟨"https://v/x.mp4", .Video, 0⟩).2.2 = true ∧
      get_media_by_url
        (downloadAndRecord (fun _ => some [1, 2, 3]) (fun _ => none) [] "dl"
          "t7" (fun _ => 0) ⟨"https://v/x.mp4", .Video, 0⟩).1
        "https://v/x.mp4" =
        some ⟨some (filenameOf (fun _ => 0) ⟨"https://v/x.mp4", .Video, 0⟩),
          some (calculate_hash [1, 2, 3])⟩ ∧
      (downloadAndRecord (fun _ => some [1, 2, 3]) (fun _ => none) [] "dl" "t7"
          (fun _ => 0) ⟨"https://v/x.mp4", .Video, 0⟩).2.1
        (pathJoin "dl" (filenameOf (fun _ => 0) ⟨"https://v/x.mp4", .Video, 0⟩))
        = some [1, 2, 3]) :=
  ⟨rfl, rfl,
    c1_store_updated_before_done (fun _ => some [1, 2, 3]) (fun _ => none) []
      "dl" "t7" (fun _ => 0) ⟨"https://v/x.mp4", .Video, 0⟩ [1, 2, 3] rfl rfl⟩

end Rxd
